import Mathlib

/-!
Verification of the evolutionary program-synthesis core
(`self-modifying/2_genetic_programming.py`) and the anomaly viewer
(`swarm/tools/view_results.py`).

The Python code is shallowly embedded: the behaviour of an untrusted
candidate program under the sandbox (`subprocess.run`) is a parameter
`Exec`, the mutation oracle (`llm_mutate`, an external command) is a
parameter `String → ℚ → String`, and `json.loads` is a parameter
`String → Option J`.  Everything the driver itself does — scoring,
ranking, elitism, reproduction, the generation loop — is translated
directly from the source.
-/

/-- Characters removed by Python's `str.strip()` with no argument:
ASCII whitespace, including vertical tab and form feed. -/
def isPySpace (c : Char) : Bool :=
  c = ' ' || c = '\t' || c = '\n' || c = '\r' || c = '\x0b' || c = '\x0c'

/-- Python's `str.strip()`: drop leading and trailing whitespace. -/
def pyStrip (s : String) : String :=
  ⟨((s.data.dropWhile isPySpace).reverse.dropWhile isPySpace).reverse⟩

namespace GenProg

/-- Outcome of one sandbox invocation
(`subprocess.run([sys.executable, test_file, str(input_val)], ...)`):
either the child process completed, yielding its captured standard output
and its exit code, or the call raised in the evaluator
(`subprocess.TimeoutExpired` on timeout, or any other `Exception`). -/
inductive RunResult where
  | completed (stdout : String) (exitcode : Int)
  | raised
deriving DecidableEq

/-- Behaviour of one candidate program: what running it on an input value
does.  This is the semantics of arbitrary Python source, so it is a
parameter of the embedding. -/
def Exec := Int → RunResult

/-- One iteration of the loop body of `evaluate_fitness`: the test
`(input_val, expected)` is counted as a failure iff the `subprocess.run`
call raised (timeout or other exception), or it completed and
`result.stdout.strip()` differs from `expected`.  The exit code of a
completed run is not inspected by the source. -/
def testFails (exec : Exec) (t : Int × String) : Bool :=
  match exec t.1 with
  | .completed stdout _ => decide (pyStrip stdout ≠ t.2)
  | .raised => true

/-- The `failures` counter accumulated by the loop in `evaluate_fitness`. -/
def failures (exec : Exec) (tests : List (Int × String)) : Nat :=
  tests.countP (fun t => testFails exec t)

/-- Value of `evaluate_fitness`: `failures / len(FITNESS_TESTS)`, with the
module-level constant `FITNESS_TESTS` generalised to the parameter
`tests`.  Rational division stands in for Python float division (all
values involved are exact dyadic/size-8 fractions in the program). -/
def evaluate_fitness (exec : Exec) (tests : List (Int × String)) : ℚ :=
  (failures exec tests : ℚ) / (tests.length : ℚ)

/-- Errors the embedded fitness computation can raise. -/
inductive PyError where
  | zeroDivision
deriving DecidableEq

/-- The same computation with Python partiality made explicit: on an empty
test list the expression `failures / len(FITNESS_TESTS)` raises
`ZeroDivisionError` in Python.  The branch below records that behaviour of
the division; the source contains no guard. -/
def evaluate_fitnessE (exec : Exec) (tests : List (Int × String)) :
    Except PyError ℚ :=
  if tests.length = 0 then .error .zeroDivision
  else .ok (evaluate_fitness exec tests)

/-- The module-level constant `FITNESS_TESTS` of the source. -/
def FITNESS_TESTS : List (Int × String) :=
  [(1, "1"), (3, "Fizz"), (5, "Buzz"), (15, "FizzBuzz"),
   (7, "7"), (9, "Fizz"), (10, "Buzz"), (30, "FizzBuzz")]

/-- Key order used by `fitness_scores.sort(key=lambda x: x[1])`: scored
candidates are compared by their fitness component only. -/
def fitnessLE (a b : String × ℚ) : Prop := a.2 ≤ b.2

instance : DecidableRel fitnessLE := fun a b =>
  inferInstanceAs (Decidable (a.2 ≤ b.2))

instance : IsTotal (String × ℚ) fitnessLE := ⟨fun a b => le_total a.2 b.2⟩

instance : IsTrans (String × ℚ) fitnessLE :=
  ⟨fun _ _ _ h h2 => le_trans h h2⟩

/-- Embedding of `fitness_scores.sort(key=lambda x: x[1])`.  Python's
sort is a stable ascending sort by the key, and the stable ascending
sort of a list is unique, so insertion sort by `fitnessLE` computes
exactly the list the source produces. -/
def rank (scores : List (String × ℚ)) : List (String × ℚ) :=
  scores.insertionSort fitnessLE

/-- The list comprehension
`fitness_scores = [(code, evaluate_fitness(code)) for code in population]`,
with the fitness call threaded through a state `σ` so that the number and
order of `evaluate_fitness` invocations is part of the embedding. -/
def evalAll {σ : Type} (f : String → σ → ℚ × σ) :
    List String → σ → List (String × ℚ) × σ
  | [], s => ([], s)
  | c :: cs, s =>
    match f c s with
    | (q, s1) =>
      match evalAll f cs s1 with
      | (rest, s2) => ((c, q) :: rest, s2)

/-- The reproduction loop of `main`: iterate over the ranked tail and, as
long as the new population is still below `population_size`, append the
oracle's output `llm_mutate(code, fitness)` for the discarded slot. -/
def reproduceLoop (mutate : String → ℚ → String) (popSize : Nat) :
    List String → List (String × ℚ) → List String
  | acc, [] => acc
  | acc, (code, fitness) :: rest =>
    if acc.length < popSize then
      reproduceLoop mutate popSize (acc ++ [mutate code fitness]) rest
    else
      reproduceLoop mutate popSize acc rest

/-- Building the next generation: `new_population = [best_code]` (the
elite carried source-unchanged) followed by the reproduction loop over
`fitness_scores[1:]`. -/
def reproduce (mutate : String → ℚ → String) (popSize : Nat)
    (best : String) (rest : List (String × ℚ)) : List String :=
  reproduceLoop mutate popSize [best] rest

/-- What one generation body of the loop in `main` decides. -/
inductive StepResult where
  | converged (best : String)
  | next (newPop : List String)
deriving DecidableEq

/-- One generation body of the loop in `main`, with the fitness call
threaded through a state: evaluate every candidate of the population (the
list comprehension), sort the scored list by fitness, read
`fitness_scores[0]` (`none` embeds the `IndexError` this raises on an
empty population), return the best candidate if its fitness is `0`,
otherwise build the next population. -/
def stepS {σ : Type} (f : String → σ → ℚ × σ)
    (mutate : String → ℚ → String) (popSize : Nat)
    (population : List String) (s : σ) : Option StepResult × σ :=
  match evalAll f population s with
  | (fitness_scores, s1) =>
    match rank fitness_scores with
    | [] => (none, s1)
    | (best_code, best_fitness) :: restRanked =>
      if best_fitness = 0 then (some (.converged best_code), s1)
      else
        (some (.next (reproduce mutate popSize best_code restRanked)), s1)

/-- The generation body with a pure fitness function: the value `stepS`
computes whenever the state-threaded fitness call returns `execF code`
(theorem `stepS_fst`).  `evaluate_fitness` is deterministic in the
embedding, matching the determinism assumption of the claims. -/
def step (execF : String → ℚ) (mutate : String → ℚ → String)
    (popSize : Nat) (population : List String) : Option StepResult :=
  match rank (population.map (fun c => (c, execF c))) with
  | [] => none
  | (best_code, best_fitness) :: restRanked =>
    if best_fitness = 0 then some (.converged best_code)
    else some (.next (reproduce mutate popSize best_code restRanked))

/-- Final observable of a run of `main`: either the early return with the
solution and the 1-based generation at which it was found, or falling out
of the loop with the final population, whose head the source then prints
as the best solution. -/
inductive RunOutcome where
  | solution (code : String) (gen : Nat)
  | exhausted (population : List String)
deriving DecidableEq

/-- The `for gen in range(generations)` loop of `main`, also counting how
many generations were evaluated.  The fuel argument is the number of
generations still to run, `genIdx` the number already evaluated.  The
`none` outcomes embed the `IndexError` of reading element `[0]` of an
empty population. -/
def runAux (execF : String → ℚ) (mutate : String → ℚ → String)
    (popSize : Nat) :
    Nat → Nat → List String → Option RunOutcome × Nat
  | 0, genIdx, population =>
    (if population.isEmpty then none else some (.exhausted population),
     genIdx)
  | g + 1, genIdx, population =>
    match step execF mutate popSize population with
    | none => (none, genIdx + 1)
    | some (.converged best) =>
      (some (.solution best (genIdx + 1)), genIdx + 1)
    | some (.next newPop) =>
      runAux execF mutate popSize g (genIdx + 1) newPop

/-- A whole run of `main`, generalised over the hardcoded run parameters
`population_size` and `generations`: the outcome plus the number of
generations evaluated. -/
def run (execF : String → ℚ) (mutate : String → ℚ → String)
    (popSize generations : Nat) (seeds : List String) :
    Option RunOutcome × Nat :=
  runAux execF mutate popSize generations 0 seeds

/-- The hardcoded seed population of `main`. -/
def seedPopulation : List String :=
  ["import sys\nprint(sys.argv[1])",
   "import sys\nprint(\x27Fizz\x27)",
   "import sys\nn=int(sys.argv[1])\nprint(\x27FizzBuzz\x27 if n%15==0 else \x27Fizz\x27 if n%3==0 else \x27Buzz\x27 if n%5==0 else str(n))"]

/-- The concrete `main`: population size 3, 5 generations, the hardcoded
seeds, fitness measured by `evaluate_fitness` against `FITNESS_TESTS`.
The candidate semantics `exec` and the oracle `mutate` stay parameters. -/
def mainRun (exec : String → Exec) (mutate : String → ℚ → String) :
    Option RunOutcome × Nat :=
  run (fun c => evaluate_fitness (exec c) FITNESS_TESTS) mutate 3 5
    seedPopulation

end GenProg

namespace ViewResults

/-- Loop body of `load_anomalies` in `view_results.py`, with the file
content viewed as its list of lines and `json.loads` abstracted as
`parse` (returning `none` exactly when `json.loads` would raise
`json.JSONDecodeError`, the only exception the source catches).  Each
line is stripped; empty stripped lines are skipped (`continue`); lines
`parse` rejects are skipped after printing a warning (a side effect with
no influence on the returned list); parsed values are appended in order. -/
def load_anomalies {J : Type} (parse : String → Option J) :
    List String → List J
  | [] => []
  | line :: rest =>
    let stripped := pyStrip line
    if stripped.isEmpty then load_anomalies parse rest
    else
      match parse stripped with
      | some v => v :: load_anomalies parse rest
      | none => load_anomalies parse rest

end ViewResults

namespace GenProg

theorem countP_le_len (p : (Int × String) → Bool) (l : List (Int × String)) :
    l.countP p ≤ l.length :=
  List.countP_le_length p

/-- Claim C1: for every candidate behaviour and non-empty test list,
`evaluate_fitness` equals `failures / |tests|`, lies in `[0, 1]`, and is
`0` iff no test fails, where a test fails iff the sandbox run raised or
its trimmed captured stdout differs from the expected string. -/
theorem evaluate_fitness_bounds_and_zero_iff (exec : Exec)
    (tests : List (Int × String)) (h : tests ≠ []) :
    evaluate_fitness exec tests
        = (failures exec tests : ℚ) / (tests.length : ℚ) ∧
    0 ≤ evaluate_fitness exec tests ∧
    evaluate_fitness exec tests ≤ 1 ∧
    (evaluate_fitness exec tests = 0 ↔
      ∀ t ∈ tests, testFails exec t = false) := by
  have hlen : 0 < tests.length := List.length_pos.mpr h
  have hlenQ : (0 : ℚ) < (tests.length : ℚ) := by exact_mod_cast hlen
  refine ⟨rfl, ?_, ?_, ?_⟩
  · exact div_nonneg (by positivity) hlenQ.le
  · rw [evaluate_fitness, div_le_one hlenQ]
    exact_mod_cast countP_le_len _ tests
  · rw [evaluate_fitness, div_eq_zero_iff]
    constructor
    · rintro (h0 | h0)
      · have : failures exec tests = 0 := by exact_mod_cast h0
        rw [failures, List.countP_eq_zero] at this
        intro t ht
        exact Bool.not_eq_true _ ▸ this t ht
      · exact absurd h0 hlenQ.ne'
    · intro hall
      left
      have : failures exec tests = 0 := by
        rw [failures, List.countP_eq_zero]
        intro t ht
        simp [hall t ht]
      exact_mod_cast this

/-- Witness for C1 at a concrete input: a candidate whose sandbox call
always raises, on the one-test list `[(1, "1")]`. -/
theorem evaluate_fitness_bounds_witness :
    0 ≤ evaluate_fitness (fun _ => RunResult.raised) [((1 : Int), "1")] ∧
    evaluate_fitness (fun _ => RunResult.raised) [((1 : Int), "1")] ≤ 1 :=
  ⟨(evaluate_fitness_bounds_and_zero_iff (fun _ => RunResult.raised)
      [((1 : Int), "1")] (by decide)).2.1,
   (evaluate_fitness_bounds_and_zero_iff (fun _ => RunResult.raised)
      [((1 : Int), "1")] (by decide)).2.2.1⟩

/-- Counterexample to claim C2 as stated: a candidate whose process exits
with the non-zero code 1 (as it does on an uncaught runtime fault after
printing) but whose trimmed stdout matches the expected string is scored
as a PASSING test, and contributes fitness 0 — non-zero exit is not
mapped to a failing test. -/
theorem nonzero_exit_scored_as_pass :
    testFails (fun _ => RunResult.completed "1\n" 1) (1, "1") = false ∧
    evaluate_fitness (fun _ => RunResult.completed "1\n" 1)
      [((1 : Int), "1")] = 0 := by
  refine ⟨by decide, ?_⟩
  have h0 : failures (fun _ => RunResult.completed "1\n" 1)
      [((1 : Int), "1")] = 0 := by decide
  simp [evaluate_fitness, h0]

/-- Claim C2, amended: a raised `TimeoutExpired` (or any other exception
of the `subprocess.run` call) is caught and counted as a failing test,
never propagated; a completed run is scored solely by comparing its
trimmed stdout with the expected string — its exit code is ignored, so
non-zero exit or an uncaught fault inside the candidate does not by
itself make the test fail. -/
theorem sandbox_scoring_ignores_exit_code (exec : Exec) (t : Int × String) :
    (exec t.1 = .raised → testFails exec t = true) ∧
    (∀ out ec, exec t.1 = .completed out ec →
      (testFails exec t = true ↔ pyStrip out ≠ t.2)) := by
  constructor
  · intro h
    simp [testFails, h]
  · intro out ec h
    simp [testFails, h]

/-- Witness for the amended C2: the raised branch at a concrete input. -/
theorem sandbox_scoring_witness :
    testFails (fun _ => RunResult.raised) (1, "x") = true :=
  (sandbox_scoring_ignores_exit_code (fun _ => RunResult.raised) (1, "x")).1
    rfl

/-- Counterexample to claim C8 as stated: the division by the number of
test vectors is not guarded — reaching the fitness computation with an
empty test list raises `ZeroDivisionError` (no `ConfigurationError`
exists anywhere in the source, and no validation runs before the loop). -/
theorem empty_tests_zero_division :
    evaluate_fitnessE (fun _ => RunResult.raised) [] =
      .error .zeroDivision := rfl

/-- Claim C8, amended: the program performs no parameter validation, but
its run parameters are hardcoded valid constants — the test list is the
fixed 8-element `FITNESS_TESTS` — so every fitness evaluation the program
performs divides by 8 and never raises. -/
theorem run_tests_fixed_nonempty :
    FITNESS_TESTS.length = 8 ∧
    ∀ exec : Exec, evaluate_fitnessE exec FITNESS_TESTS =
      .ok (evaluate_fitness exec FITNESS_TESTS) := by
  refine ⟨rfl, fun exec => ?_⟩
  rfl

end GenProg

namespace ViewResults

/-- Claim C10: `load_anomalies` is total (the only exception the body can
raise, `json.JSONDecodeError`, is caught) and returns exactly the values
parsed from the lines that are non-empty after stripping, in file order,
skipping empty lines and unparseable lines. -/
theorem load_anomalies_keeps_parsed_lines {J : Type}
    (parse : String → Option J) (lines : List String) :
    load_anomalies parse lines =
      ((lines.map pyStrip).filter (fun s => !s.isEmpty)).filterMap
        parse := by
  induction lines with
  | nil => rfl
  | cons line rest ih =>
    rw [load_anomalies]
    by_cases he : (pyStrip line).isEmpty
    · simp [he, ih]
    · cases hp : parse (pyStrip line) with
      | some v => simp [he, hp, ih]
      | none => simp [he, hp, ih]

end ViewResults

namespace GenProg

theorem rank_perm (scores : List (String × ℚ)) :
    (rank scores).Perm scores :=
  List.perm_insertionSort fitnessLE scores

theorem rank_sorted (scores : List (String × ℚ)) :
    List.Sorted fitnessLE (rank scores) :=
  List.sorted_insertionSort fitnessLE scores

theorem filter_orderedInsert_neg (P : String × ℚ → Bool) (a : String × ℚ)
    (ha : P a = false) (s : List (String × ℚ)) :
    (s.orderedInsert fitnessLE a).filter P = s.filter P := by
  induction s with
  | nil => simp [List.orderedInsert, ha]
  | cons b l ih =>
    rw [List.orderedInsert]
    by_cases hab : fitnessLE a b
    · simp [hab, ha]
    · simp [hab, List.filter_cons, ih]

theorem filter_orderedInsert_pos (k : ℚ) (a : String × ℚ) (ha : a.2 = k)
    (s : List (String × ℚ)) :
    (s.orderedInsert fitnessLE a).filter (fun p => decide (p.2 = k)) =
      a :: s.filter (fun p => decide (p.2 = k)) := by
  induction s with
  | nil => simp [List.orderedInsert, ha]
  | cons b l ih =>
    rw [List.orderedInsert]
    by_cases hab : fitnessLE a b
    · simp [hab, ha]
    · have hb : ¬ (b.2 = k) := by
        intro hbk
        exact hab (le_of_eq (ha.trans hbk.symm))
      simp [hab, hb, ih]

theorem rank_stable (scores : List (String × ℚ)) (k : ℚ) :
    (rank scores).filter (fun p => decide (p.2 = k)) =
      scores.filter (fun p => decide (p.2 = k)) := by
  induction scores with
  | nil => rfl
  | cons a l ih =>
    show (List.orderedInsert fitnessLE a
        (List.insertionSort fitnessLE l)).filter
        (fun p => decide (p.2 = k)) = _
    by_cases ha : a.2 = k
    · rw [filter_orderedInsert_pos k a ha]
      rw [show List.insertionSort fitnessLE l = rank l from rfl, ih]
      simp [List.filter_cons, ha]
    · rw [filter_orderedInsert_neg _ a (by simp [ha])]
      rw [show List.insertionSort fitnessLE l = rank l from rfl, ih]
      simp [List.filter_cons, ha]

theorem rank_head_min (scores : List (String × ℚ)) (b : String × ℚ)
    (hb : (rank scores).head? = some b) : ∀ p ∈ scores, b.2 ≤ p.2 := by
  intro p hp
  have hmem : p ∈ rank scores := (rank_perm scores).mem_iff.mpr hp
  obtain ⟨t, ht⟩ : ∃ t, rank scores = b :: t := by
    cases hr : rank scores with
    | nil => rw [hr] at hb; cases hb
    | cons x t =>
      rw [hr] at hb
      cases hb
      exact ⟨t, rfl⟩
  have hs := rank_sorted scores
  rw [ht] at hs hmem
  rcases List.mem_cons.mp hmem with h | hpt
  · exact le_of_eq (congrArg Prod.snd h.symm)
  · exact (List.sorted_cons.mp hs).1 p hpt

/-- Claim C6: `fitness_scores.sort(key=lambda x: x[1])` orders the scored
candidates by ascending fitness, the sort is stable — entries with equal
fitness keep their original relative order — and the first element of the
ranked list has the minimum fitness of the generation. -/
theorem rank_sorted_stable_head_min (scores : List (String × ℚ)) :
    List.Sorted fitnessLE (rank scores) ∧
    (∀ k : ℚ, (rank scores).filter (fun p => decide (p.2 = k)) =
      scores.filter (fun p => decide (p.2 = k))) ∧
    (∀ b, (rank scores).head? = some b → ∀ p ∈ scores, b.2 ≤ p.2) :=
  ⟨rank_sorted scores, rank_stable scores,
   fun b hb => rank_head_min scores b hb⟩

/-- Witness for C6 at a concrete generation: ranking puts the fitness-1
candidate first, and its fitness is below that of each other candidate. -/
theorem rank_sorted_stable_head_min_witness :
    rank [("a", (2 : ℚ)), ("b", 1), ("c", 2)] =
      [("b", 1), ("a", 2), ("c", 2)] ∧
    (("b", (1 : ℚ)) : String × ℚ).2 ≤ (("a", (2 : ℚ)) : String × ℚ).2 :=
  ⟨by decide,
   (rank_sorted_stable_head_min [("a", (2 : ℚ)), ("b", 1), ("c", 2)]).2.2
     ("b", 1) (by decide) ("a", 2) (by decide)⟩

end GenProg

namespace GenProg

theorem evalAll_fst {σ : Type} (f : String → σ → ℚ × σ)
    (execF : String → ℚ) (hf : ∀ c s, (f c s).1 = execF c)
    (l : List String) : ∀ s : σ,
    (evalAll f l s).1 = l.map (fun c => (c, execF c)) := by
  induction l with
  | nil => intro s; rfl
  | cons c cs ih =>
    intro s
    simp only [evalAll, List.map_cons]
    rw [hf c s, ih]

theorem evalAll_count (execF : String → ℚ) (l : List String) :
    ∀ n : Nat,
      (evalAll (fun c m => (execF c, m + 1)) l n).2 = n + l.length := by
  induction l with
  | nil => intro n; rfl
  | cons c cs ih =>
    intro n
    simp only [evalAll, List.length_cons]
    rw [ih]
    omega


theorem stepS_fst {σ : Type} (f : String → σ → ℚ × σ) (execF : String → ℚ)
    (hf : ∀ c s, (f c s).1 = execF c) (mutate : String → ℚ → String)
    (popSize : Nat) (pop : List String) (s : σ) :
    (stepS f mutate popSize pop s).1 = step execF mutate popSize pop := by
  rw [stepS, step]
  cases he : evalAll f pop s with
  | mk scores s2 =>
    have hsc : scores = pop.map (fun c => (c, execF c)) := by
      have h2 := evalAll_fst f execF hf pop s
      rw [he] at h2
      exact h2
    subst hsc
    dsimp only
    cases hr : rank (pop.map (fun c => (c, execF c))) with
    | nil => rfl
    | cons p rest =>
      obtain ⟨b, bf⟩ := p
      dsimp only
      by_cases hbf : bf = 0
      · rw [if_pos hbf, if_pos hbf]
      · rw [if_neg hbf, if_neg hbf]

theorem reproduceLoop_eq (mutate : String → ℚ → String) (popSize : Nat)
    (rest : List (String × ℚ)) : ∀ acc : List String,
    reproduceLoop mutate popSize acc rest =
      acc ++ ((rest.take (popSize - acc.length)).map
        (fun p => mutate p.1 p.2)) := by
  induction rest with
  | nil => intro acc; simp [reproduceLoop]
  | cons p r ih =>
    intro acc
    obtain ⟨code, fitness⟩ := p
    rw [reproduceLoop]
    by_cases hlt : acc.length < popSize
    · rw [if_pos hlt, ih]
      have hk : popSize - acc.length = (popSize - (acc.length + 1)) + 1 :=
        by omega
      rw [hk]
      simp [List.take_succ_cons, List.append_assoc]
    · rw [if_neg hlt, ih]
      have h0 : popSize - acc.length = 0 := by omega
      simp [h0]

theorem reproduce_eq (mutate : String → ℚ → String) (popSize : Nat)
    (best : String) (rest : List (String × ℚ)) :
    reproduce mutate popSize best rest =
      best :: ((rest.take (popSize - 1)).map (fun p => mutate p.1 p.2)) := by
  rw [reproduce, reproduceLoop_eq]
  simp

theorem rank_head_mem_fst (execF : String → ℚ) (pop : List String)
    (best : String) (bf : ℚ) (rest : List (String × ℚ))
    (hr : rank (pop.map (fun c => (c, execF c))) = (best, bf) :: rest) :
    best ∈ pop ∧ execF best = bf := by
  have hmem : ((best, bf) : String × ℚ) ∈ rank
      (pop.map (fun c => (c, execF c))) := by
    rw [hr]
    exact List.mem_cons_self _ _
  have hmem2 := (rank_perm _).mem_iff.mp hmem
  obtain ⟨c, hc, hcb⟩ := List.mem_map.mp hmem2
  have hc1 : c = best := congrArg Prod.fst hcb
  have hc2 : execF c = bf := congrArg Prod.snd hcb
  subst hc1
  exact ⟨hc, hc2⟩

theorem rank_head_min_fit (execF : String → ℚ) (pop : List String)
    (best : String) (bf : ℚ) (rest : List (String × ℚ))
    (hr : rank (pop.map (fun c => (c, execF c))) = (best, bf) :: rest) :
    ∀ c ∈ pop, bf ≤ execF c := by
  intro c hc
  have := rank_head_min (pop.map (fun c => (c, execF c))) (best, bf)
    (by rw [hr]; rfl) (c, execF c) (List.mem_map.mpr ⟨c, hc, rfl⟩)
  simpa using this

theorem step_isSome (execF : String → ℚ) (mutate : String → ℚ → String)
    (popSize : Nat) (pop : List String) (h : pop ≠ []) :
    (step execF mutate popSize pop).isSome := by
  rw [step]
  cases hr : rank (pop.map (fun c => (c, execF c))) with
  | nil =>
    have hlen := congrArg List.length hr
    simp [rank] at hlen
    exact absurd hlen h
  | cons p rest =>
    obtain ⟨b, bf⟩ := p
    dsimp only
    by_cases hbf : bf = 0
    · rw [if_pos hbf]
      rfl
    · rw [if_neg hbf]
      rfl

theorem step_converged (execF : String → ℚ) (mutate : String → ℚ → String)
    (popSize : Nat) (pop : List String) (best : String)
    (h : step execF mutate popSize pop = some (.converged best)) :
    best ∈ pop ∧ execF best = 0 ∧ ∀ c ∈ pop, execF best ≤ execF c := by
  rw [step] at h
  rcases hr : rank (pop.map (fun c => (c, execF c))) with _ | ⟨⟨b, bf⟩, rest⟩
  · rw [hr] at h
    simp at h
  · rw [hr] at h
    dsimp only at h
    by_cases hbf : bf = 0
    · rw [if_pos hbf] at h
      have hb : b = best := by
        injection h with h2
        injection h2
      subst hb
      obtain ⟨hmem, hfit⟩ := rank_head_mem_fst execF pop b bf rest hr
      refine ⟨hmem, by rw [hfit, hbf], fun c hc => ?_⟩
      rw [hfit]
      exact rank_head_min_fit execF pop b bf rest hr c hc
    · rw [if_neg hbf] at h
      simp at h

theorem step_next (execF : String → ℚ) (mutate : String → ℚ → String)
    (popSize : Nat) (pop newPop : List String)
    (h : step execF mutate popSize pop = some (.next newPop)) :
    ∃ best bf rest,
      rank (pop.map (fun c => (c, execF c))) = (best, bf) :: rest ∧
      newPop = best :: ((rest.take (popSize - 1)).map
        (fun p => mutate p.1 p.2)) ∧
      best ∈ pop ∧ execF best = bf ∧ bf ≠ 0 ∧
      ∀ c ∈ pop, bf ≤ execF c := by
  rw [step] at h
  rcases hr : rank (pop.map (fun c => (c, execF c))) with _ | ⟨⟨b, bf⟩, rest⟩
  · rw [hr] at h
    simp at h
  · rw [hr] at h
    dsimp only at h
    by_cases hbf : bf = 0
    · rw [if_pos hbf] at h
      simp at h
    · rw [if_neg hbf] at h
      have hnp : newPop = reproduce mutate popSize b rest := by
        injection h with h2
        injection h2 with h3
        exact h3.symm
      obtain ⟨hmem, hfit⟩ := rank_head_mem_fst execF pop b bf rest hr
      exact ⟨b, bf, rest, rfl,
        by rw [hnp, reproduce_eq], hmem, hfit, hbf,
        rank_head_min_fit execF pop b bf rest hr⟩

end GenProg

namespace GenProg

/-- Counterexample to claim C3 as stated: take fitness 1 for seed "a" and
2 for "b" and "c", with oracle `c ↦ c ++ "m"`.  Generation 1 ranks "a"
best and carries it (already scored) into the next population
`["a", "bm", "cm"]`; the next generation's evaluation pass — the embedded
list comprehension, instrumented to count fitness invocations — then
calls the fitness function 3 times, once per candidate INCLUDING the
already-scored elite "a", not only on the 2 unscored candidates. -/
theorem elite_reevaluated_every_generation :
    step (fun c => if c = "a" then (1 : ℚ) else 2) (fun c _ => c ++ "m") 3
        ["a", "b", "c"] = some (.next ["a", "bm", "cm"]) ∧
    (evalAll (fun c n => ((if c = "a" then (1 : ℚ) else 2), n + 1))
      ["a", "bm", "cm"] 0).2 = 3 :=
  ⟨by decide, by decide⟩

/-- Claim C3, amended: the previous generation's best candidate is indeed
carried source-unchanged to the head of the new population, but it is NOT
exempt from evaluation — each generation's evaluation pass invokes the
fitness function once per member of the population, elite included; no
fitness cache exists in the source. -/
theorem elite_carried_but_all_reevaluated (execF : String → ℚ)
    (mutate : String → ℚ → String) (popSize : Nat)
    (pop newPop : List String)
    (h : step execF mutate popSize pop = some (.next newPop)) :
    (∃ bf rest, rank (pop.map (fun c => (c, execF c))) =
      (newPop.headD "", bf) :: rest) ∧
    ∀ n : Nat,
      (evalAll (fun c m => (execF c, m + 1)) pop n).2 = n + pop.length := by
  obtain ⟨best, bf, rest, hrank, hnew, _, _, _, _⟩ :=
    step_next execF mutate popSize pop newPop h
  refine ⟨⟨bf, rest, ?_⟩, fun n => evalAll_count execF pop n⟩
  rw [hnew]
  exact hrank

/-- Witness for the amended C3 at the concrete generation of the
counterexample: the evaluation pass over the 3-candidate population makes
exactly 3 fitness calls. -/
theorem elite_carried_witness :
    (evalAll (fun c m => ((if c = "a" then (1 : ℚ) else 2), m + 1))
      ["a", "b", "c"] 0).2 = 0 + (["a", "b", "c"] : List String).length :=
  (elite_carried_but_all_reevaluated
    (fun c => if c = "a" then (1 : ℚ) else 2) (fun c _ => c ++ "m") 3
    ["a", "b", "c"] ["a", "bm", "cm"] (by decide)).2 0

/-- Counterexample to claim C4 as stated: when the oracle returns the
empty string for the discarded candidates "b" and "c", the new population
carries the empty string in those slots — the original discarded sources
are NOT substituted. -/
theorem empty_oracle_output_kept :
    step (fun c => if c = "a" then (1 : ℚ) else 2) (fun _ _ => "") 3
        ["a", "b", "c"] = some (.next ["a", "", ""]) ∧
    ("" : String) ≠ "b" ∧ ("" : String) ≠ "c" :=
  ⟨by decide, by decide, by decide⟩

/-- Claim C4, amended: the new population still receives an entry for
every processed slot — the population does not silently shrink — but each
such entry is the oracle's output verbatim (`llm_mutate`'s return value),
even when that output is empty or unparseable; the original discarded
candidate is not substituted. -/
theorem slot_receives_oracle_output (execF : String → ℚ)
    (mutate : String → ℚ → String) (popSize : Nat)
    (pop newPop : List String)
    (h : step execF mutate popSize pop = some (.next newPop)) :
    ∃ best bf rest,
      rank (pop.map (fun c => (c, execF c))) = (best, bf) :: rest ∧
      newPop = best :: ((rest.take (popSize - 1)).map
        (fun p => mutate p.1 p.2)) := by
  obtain ⟨best, bf, rest, hrank, hnew, _, _, _, _⟩ :=
    step_next execF mutate popSize pop newPop h
  exact ⟨best, bf, rest, hrank, hnew⟩

/-- Witness for the amended C4 at the concrete generation of the
counterexample, with the constant-empty oracle. -/
theorem slot_receives_oracle_output_witness :
    ∃ best bf rest,
      rank ((["a", "b", "c"]).map
        (fun c => (c, if c = "a" then (1 : ℚ) else 2))) =
        (best, bf) :: rest ∧
      (["a", "", ""] : List String) = best ::
        ((rest.take (3 - 1)).map
          (fun p => (fun _ _ => ("" : String)) p.1 p.2)) :=
  slot_receives_oracle_output (fun c => if c = "a" then (1 : ℚ) else 2)
    (fun _ _ => "") 3 ["a", "b", "c"] ["a", "", ""] (by decide)

/-- Claim C5: across one generation transition (fitness is deterministic
in the embedding), the best fitness never regresses: the minimum fitness
of the new population is at most the minimum fitness of the old one,
because the ranked-best candidate is carried over unchanged. -/
theorem best_fitness_monotone (execF : String → ℚ)
    (mutate : String → ℚ → String) (popSize : Nat)
    (pop newPop : List String)
    (h : step execF mutate popSize pop = some (.next newPop)) :
    (newPop.map execF).minimum ≤ (pop.map execF).minimum := by
  obtain ⟨best, bf, rest, hrank, hnew, hmem, hfit, hbf0, hmin⟩ :=
    step_next execF mutate popSize pop newPop h
  have h1 : (newPop.map execF).minimum ≤ (execF best : WithTop ℚ) := by
    apply List.minimum_le_of_mem'
    apply List.mem_map_of_mem
    rw [hnew]
    exact List.mem_cons_self _ _
  have h2 : (execF best : WithTop ℚ) ≤ (pop.map execF).minimum := by
    apply List.le_minimum_of_forall_le
    intro a ha
    obtain ⟨c, hc, rfl⟩ := List.mem_map.mp ha
    rw [hfit]
    exact_mod_cast hmin c hc
  exact le_trans h1 h2

/-- Witness for C5 at the concrete generation of the C3 counterexample. -/
theorem best_fitness_monotone_witness :
    (((["a", "bm", "cm"] : List String).map
      (fun c => if c = "a" then (1 : ℚ) else 2)).minimum : WithTop ℚ) ≤
      ((["a", "b", "c"] : List String).map
      (fun c => if c = "a" then (1 : ℚ) else 2)).minimum :=
  best_fitness_monotone (fun c => if c = "a" then (1 : ℚ) else 2)
    (fun c _ => c ++ "m") 3 ["a", "b", "c"] ["a", "bm", "cm"] (by decide)

/-- Claim C9: starting a generation with a population of the configured
size `popSize ≥ 1`, the reproduction step yields a new population of
exactly `popSize` candidates — one elite plus `popSize - 1` oracle
outputs — so the population size is preserved across generations. -/
theorem population_size_preserved (execF : String → ℚ)
    (mutate : String → ℚ → String) (popSize : Nat)
    (pop newPop : List String) (hlen : pop.length = popSize)
    (hpos : 1 ≤ popSize)
    (h : step execF mutate popSize pop = some (.next newPop)) :
    newPop.length = popSize := by
  obtain ⟨best, bf, rest, hrank, hnew, _, _, _, _⟩ :=
    step_next execF mutate popSize pop newPop h
  have hr : (rank (pop.map (fun c => (c, execF c)))).length = popSize := by
    simp [rank, hlen]
  rw [hrank] at hr
  simp only [List.length_cons] at hr
  rw [hnew]
  simp only [List.length_cons, List.length_map, List.length_take]
  omega

/-- Witness for C9 at the concrete generation of the C4 counterexample. -/
theorem population_size_preserved_witness :
    (["a", "", ""] : List String).length = 3 :=
  population_size_preserved (fun c => if c = "a" then (1 : ℚ) else 2)
    (fun _ _ => "") 3 ["a", "b", "c"] ["a", "", ""] (by decide) (by decide)
    (by decide)

end GenProg

namespace GenProg

theorem runAux_spec (execF : String → ℚ) (mutate : String → ℚ → String)
    (popSize : Nat) :
    ∀ (g genIdx : Nat) (pop : List String), pop ≠ [] →
      (runAux execF mutate popSize g genIdx pop).1.isSome ∧
      genIdx ≤ (runAux execF mutate popSize g genIdx pop).2 ∧
      (runAux execF mutate popSize g genIdx pop).2 ≤ genIdx + g ∧
      (∀ best gg,
        (runAux execF mutate popSize g genIdx pop).1 =
          some (.solution best gg) →
        gg = (runAux execF mutate popSize g genIdx pop).2 ∧
        execF best = 0) ∧
      (∀ popf,
        (runAux execF mutate popSize g genIdx pop).1 =
          some (.exhausted popf) →
        (runAux execF mutate popSize g genIdx pop).2 = genIdx + g ∧
        popf ≠ [] ∧
        ((g = 0 ∧ popf = pop) ∨
          ∃ prevPop bf rest,
            step execF mutate popSize prevPop = some (.next popf) ∧
            rank (prevPop.map (fun c => (c, execF c))) =
              (popf.headD "", bf) :: rest)) := by
  intro g
  induction g with
  | zero =>
    intro genIdx pop hpop
    have hne : pop.isEmpty = false := by
      cases pop with
      | nil => exact absurd rfl hpop
      | cons a l => rfl
    have hres : runAux execF mutate popSize 0 genIdx pop =
        (some (.exhausted pop), genIdx) := by
      rw [runAux]
      simp [hne]
    rw [hres]
    dsimp only
    refine ⟨rfl, le_refl _, by omega, ?_, ?_⟩
    · intro best gg hsol
      simp at hsol
    · intro popf hex
      have hpf : popf = pop := by
        have h2 := Option.some.inj hex
        injection h2 with h3
        exact h3.symm
      subst hpf
      exact ⟨by omega, hpop, Or.inl ⟨rfl, rfl⟩⟩
  | succ g ih =>
    intro genIdx pop hpop
    cases hstep : step execF mutate popSize pop with
    | none =>
      have hs := step_isSome execF mutate popSize pop hpop
      rw [hstep] at hs
      simp at hs
    | some res =>
      cases res with
      | converged best =>
        have hres : runAux execF mutate popSize (g + 1) genIdx pop =
            (some (.solution best (genIdx + 1)), genIdx + 1) := by
          rw [runAux, hstep]
        rw [hres]
        dsimp only
        obtain ⟨hmem, hfit, _⟩ :=
          step_converged execF mutate popSize pop best hstep
        refine ⟨rfl, by omega, by omega, ?_, ?_⟩
        · intro b gg hsol
          have h2 := Option.some.inj hsol
          injection h2 with hb hg
          subst hb
          subst hg
          exact ⟨rfl, hfit⟩
        · intro popf hex
          simp at hex
      | next newPop =>
        have hnp : newPop ≠ [] := by
          obtain ⟨best, bf, rest, _, hnew, _⟩ :=
            step_next execF mutate popSize pop newPop hstep
          rw [hnew]
          simp
        have hres : runAux execF mutate popSize (g + 1) genIdx pop =
            runAux execF mutate popSize g (genIdx + 1) newPop := by
          rw [runAux, hstep]
        rw [hres]
        obtain ⟨ih1, ih2, ih3, ih4, ih5⟩ := ih (genIdx + 1) newPop hnp
        refine ⟨ih1, by omega, by omega, ih4, ?_⟩
        intro popf hex
        obtain ⟨he1, he2, he3⟩ := ih5 popf hex
        refine ⟨by omega, he2, ?_⟩
        rcases he3 with ⟨hg0, hpf⟩ | hprev
        · subst hpf
          right
          obtain ⟨best, bf, rest, hrank, hnew, _, _, _, _⟩ :=
            step_next execF mutate popSize pop popf hstep
          refine ⟨pop, bf, rest, hstep, ?_⟩
          rw [hnew]
          exact hrank
        · right
          exact hprev

/-- Claim C7: with `max_generations = G` the run evaluates at most `G`
generations and — for a non-empty seed population — always produces a
result: if it returns early, the returned candidate has fitness `0` and
the generation at which it was found is at most `G`; otherwise exactly
`G` generations were evaluated and the loop falls through with a final
non-empty population whose head, the value the source prints as the best
solution, is the ranked-best candidate of the last evaluated generation
(or the first seed when `G = 0`). -/
theorem run_terminates_with_result (execF : String → ℚ)
    (mutate : String → ℚ → String) (popSize G : Nat)
    (seeds : List String) (hseeds : seeds ≠ []) :
    (run execF mutate popSize G seeds).1.isSome ∧
    (run execF mutate popSize G seeds).2 ≤ G ∧
    (∀ best g, (run execF mutate popSize G seeds).1 =
        some (.solution best g) → g ≤ G ∧ execF best = 0) ∧
    (∀ popf, (run execF mutate popSize G seeds).1 =
        some (.exhausted popf) →
      (run execF mutate popSize G seeds).2 = G ∧ popf ≠ [] ∧
      ((G = 0 ∧ popf = seeds) ∨
        ∃ prevPop bf rest,
          step execF mutate popSize prevPop = some (.next popf) ∧
          rank (prevPop.map (fun c => (c, execF c))) =
            (popf.headD "", bf) :: rest)) := by
  simp only [run]
  obtain ⟨h1, h2, h3, h4, h5⟩ :=
    runAux_spec execF mutate popSize G 0 seeds hseeds
  refine ⟨h1, by omega, ?_, ?_⟩
  · intro best g hsol
    obtain ⟨hg, hfit⟩ := h4 best g hsol
    exact ⟨by omega, hfit⟩
  · intro popf hex
    obtain ⟨he1, he2, he3⟩ := h5 popf hex
    exact ⟨by omega, he2, he3⟩

/-- Witness for C7: with a fitness function that is constantly `0` and an
identity oracle, a run over the source's own seed population produces a
result. -/
theorem run_terminates_with_result_witness :
    (run (fun _ => (0 : ℚ)) (fun c _ => c) 3 5 seedPopulation).1.isSome :=
  (run_terminates_with_result (fun _ => (0 : ℚ)) (fun c _ => c) 3 5
    seedPopulation (by decide)).1

end GenProg
